import Mathlib

/-!
Verification of the morphological-analysis core of the `core_nlp` package
(`src/dataloader.py` and `src/engine.py`).

Modelling conventions:
* Python strings are sequences of code points, embedded as `Str := List Char`.
* Python regular-expression matching (`re.match(pattern, s)`, testing whether
  `pattern` matches at the start of `s`) is abstracted as a total boolean
  function `rm : Str → Str → Bool` supplied as a parameter; `rmLit` below
  instantiates it for metacharacter-free patterns, where `re.match` is exactly
  a prefix test.  The literal condition `"."` is special-cased by the source
  itself before `re.match` is ever consulted.
* A source file handed to a loader is `Option (List Str)`: `none` models a
  path whose `open` raises `OSError` (missing/unreadable file), `some lines`
  a readable file with the given lines (newlines already removed, as by
  iterating a Python file object line by line).
* Python `dict`s are embedded as insertion-ordered association lists;
  overwriting a key keeps its original position, as CPython dicts do.
* Python exceptions that can escape a function are modelled with `Except`.
-/

/-- A Python string: a sequence of code points. -/
abbrev Str := List Char

/-- Code points of a Lean string literal, used to write `Str` constants. -/
def str (s : String) : Str := s.data

/-- The characters stripped or split on by Python `str.strip()` / `str.split()`
with no arguments (the ASCII whitespace set). -/
def isPySpace (c : Char) : Bool :=
  c == ' ' || c == '\t' || c == '\n' || c == '\r' || c == '\x0b' || c == '\x0c'

/-- Python `s.split(sep)` generalised to a character predicate: splits at every
separator character and keeps empty fields, so the result is never empty. -/
def pySplitP (p : Char → Bool) : Str → List Str
  | [] => [[]]
  | c :: cs =>
    match pySplitP p cs with
    | [] => [[c]]
    | w :: ws => if p c then [] :: w :: ws else (c :: w) :: ws

/-- Python `s.split(" ")`. -/
def pySplitSpace (s : Str) : List Str := pySplitP (fun c => c == ' ') s

/-- Python `s.split()` with no argument: whitespace-delimited tokens, with no
empty tokens. -/
def pySplitWs (s : Str) : List Str :=
  (pySplitP isPySpace s).filter (fun w => !w.isEmpty)

/-- Python `s.strip()`. -/
def pyStrip (s : Str) : Str :=
  ((s.dropWhile isPySpace).reverse.dropWhile isPySpace).reverse

/-- Python `s.lower()`, character by character (exact on the ASCII range). -/
def pyLower (s : Str) : Str := s.map Char.toLower

/-- One value of the dictionary built by `load_dic`: the Python dict
`{"type": "root", "flags": set(...), "bool": True}`. -/
structure DicEntry where
  type : Str
  flags : List Str
  bool : Bool
deriving DecidableEq

/-- The lexicon built by `load_dic`: root → entry, insertion ordered. -/
abbrev Lexicon := List (Str × DicEntry)

/-- One affix rule built by `load_aff`: the Python dict
`{"strip": ..., "add": ..., "cond": ...}`. -/
structure AffRule where
  strip : Str
  add : Str
  cond : Str
deriving DecidableEq

/-- The rule table built by `load_aff`: flag → rules, insertion ordered. -/
abbrev RuleSet := List (Str × List AffRule)

/-- The reverse index built by `_build_reverse_rules`: add-text → rules. -/
abbrev RuleIndex := List (Str × List AffRule)

/-- Python `d[k] = v` on an insertion-ordered dict: replace in place if the
key is present, otherwise append at the end. -/
def dinsert {α : Type} : List (Str × α) → Str → α → List (Str × α)
  | [], k, v => [(k, v)]
  | (k0, v0) :: rest, k, v =>
    if k0 = k then (k, v) :: rest else (k0, v0) :: dinsert rest k v

/-- Python `d.get(k)` / `d[k]` lookup on an insertion-ordered dict. -/
def alookup {α : Type} : List (Str × α) → Str → Option α
  | [], _ => none
  | (k0, v0) :: rest, k => if k0 = k then some v0 else alookup rest k

/-- Python `rules[flag].append(rule)` preceded by `rules[flag] = []` when the
flag is absent, as in `load_aff`. -/
def appendAt : RuleSet → Str → AffRule → RuleSet
  | [], k, r => [(k, [r])]
  | (k0, rs) :: rest, k, r =>
    if k0 = k then (k0, rs ++ [r]) :: rest else (k0, rs) :: appendAt rest k r

/-- A Python exception that escapes a loader call. -/
inductive PyExc where
  | stopIteration
deriving DecidableEq

/-- Processing of one dictionary line inside the `for line in f` loop of
`load_dic`: strip, skip blanks, split on `/`, store the root with its flag
set (Python `set(...)` is modelled by its first-occurrence support). -/
def parseDicLine (d : Lexicon) (line : Str) : Lexicon :=
  let l := pyStrip line
  if l.isEmpty then d
  else
    match pySplitP (fun c => c == '/') l with
    | [] => d
    | [w] => dinsert d w ⟨str "root", [], true⟩
    | w :: fs :: _ => dinsert d w ⟨str "root", (pySplitP (fun c => c == ',') fs).dedup, true⟩

/-- The `load_dic` function of `dataloader.py`.  A missing or unreadable file
makes `open` raise `OSError`, which is caught and turned into `{}`; on a
readable file the header is skipped with `next(f)`, which raises
`StopIteration` when the file has no lines at all, and that exception is not
caught by the `except OSError` handler.  Every `return` statement of the
source returns a dict, which the `Option` result makes visible as `some`. -/
def load_dic (file : Option (List Str)) : Except PyExc (Option Lexicon) :=
  match file with
  | none => Except.ok (some [])
  | some [] => Except.error PyExc.stopIteration
  | some (_header :: rest) => Except.ok (some (rest.foldl parseDicLine []))

/-- Processing of one affix line inside the `for line in f` loop of
`load_aff`: whitespace-tokenize, keep `SFX` lines with at least 5 tokens,
translate the `"0"` placeholder to the empty string, append under the flag. -/
def parseAffLine (r : RuleSet) (line : Str) : RuleSet :=
  match pySplitWs line with
  | [] => r
  | t0 :: toks =>
    if t0 = str "SFX" then
      match toks with
      | flag :: strip0 :: add0 :: cond0 :: _ =>
        appendAt r flag
          ⟨if strip0 = str "0" then [] else strip0,
           if add0 = str "0" then [] else add0,
           cond0⟩
      | _ => r
    else r

/-- The `load_aff` function of `dataloader.py`: a missing or unreadable file
yields `{}` via the `except OSError` handler; otherwise every line is folded
through `parseAffLine` (no header skip, hence no `StopIteration`). -/
def load_aff (file : Option (List Str)) : Except PyExc (Option RuleSet) :=
  match file with
  | none => Except.ok (some [])
  | some lines => Except.ok (some (lines.foldl parseAffLine []))

/-- The `_build_reverse_rules` method: index every rule under its `add` text.
An empty rule table (the `if not self.rules: return` early exit) and the fold
over no rules produce the same empty index. -/
def build_reverse_rules (rules : RuleSet) : RuleIndex :=
  rules.foldl (fun acc fr => fr.2.foldl (fun acc2 r => appendAt acc2 r.add r) acc) []

/-- The state of a constructed `MorphAnalyzer`. -/
structure MorphAnalyzer where
  dictionary : Lexicon
  rules : RuleSet
  rules_by_add : RuleIndex
deriving DecidableEq

/-- An error escaping `MorphAnalyzer.__init__` (the `except` clause prints
and re-raises, so errors propagate unchanged). -/
inductive InitErr where
  | valueError
  | exc (e : PyExc)
deriving DecidableEq

/-- The `MorphAnalyzer.__init__` constructor: run both loaders, then the
`if self.dictionary is None or self.rules is None` check, then
`_build_reverse_rules`. -/
def initAnalyzer (dicFile affFile : Option (List Str)) : Except InitErr MorphAnalyzer :=
  match load_dic dicFile with
  | Except.error e => Except.error (InitErr.exc e)
  | Except.ok dic =>
    match load_aff affFile with
    | Except.error e => Except.error (InitErr.exc e)
    | Except.ok rules =>
      match dic, rules with
      | some d, some r => Except.ok ⟨d, r, build_reverse_rules r⟩
      | _, _ => Except.error InitErr.valueError

/-- The literal condition value `"."`, which the source treats as
"always true" before consulting `re.match`. -/
def dotPat : Str := str "."

/-- The validity test for one candidate part inside `_recursive_split`: the
part must be a key of the reverse index and at least one of its rules must
accept the current stem (`cond == "." or re.match(cond, stem)`). -/
def partValid (rm : Str → Str → Bool) (rba : RuleIndex) (stem part : Str) : Bool :=
  match alookup rba part with
  | none => false
  | some rs => rs.any (fun r => if r.cond = dotPat then true else rm r.cond stem)

/-- The recursion of `_recursive_split`, made structural on a fuel argument;
each recursive call of the source shortens the suffix by at least one
character, so fuel `suffix.length` reproduces the source exactly
(`recursive_split` below).  Splits every non-empty prefix `part` off the
suffix in increasing length order, keeps it when `partValid` accepts it, and
recurses on `(stem ++ part, rest)`. -/
def rsGo (rm : Str → Str → Bool) (rba : RuleIndex) : Nat → Str → Str → List (List Str)
  | _, _, [] => [[]]
  | 0, _, _ :: _ => []
  | fuel + 1, stem, c :: cs =>
    (List.range (c :: cs).length).flatMap (fun j =>
      let part := (c :: cs).take (j + 1)
      let rest := (c :: cs).drop (j + 1)
      if partValid rm rba stem part then
        (rsGo rm rba fuel (stem ++ part) rest).map (fun res => part :: res)
      else [])

/-- The `_recursive_split` method of `engine.py`. -/
def recursive_split (rm : Str → Str → Bool) (rba : RuleIndex) (stem suffix : Str) :
    List (List Str) :=
  rsGo rm rba suffix.length stem suffix

/-- The known-suffix set built at the top of `_select_best_match`: every
non-empty `add` text of every rule, unioned with the fixed single-character
buffer letters.  The source stores these in a Python set and only tests
membership, so a list with the same support is a faithful model. -/
def known_suffixes (rules : RuleSet) : List Str :=
  (rules.flatMap (fun fr => (fr.2.map AffRule.add).filter (fun a => !a.isEmpty)))
    ++ [str "y", str "n", str "s", str "m", str "k", str "z", str "l"]

/-- The per-candidate scoring loop of `_select_best_match`: `+10` for a known
part, `-1` for an unknown single character, `-5` otherwise, and finally
`+ 0.5` per part (the granularity tie-breaker).  The source also counts valid
parts in `valid_parts_count`, which it never reads afterwards. -/
def score (rules : RuleSet) (candidate : List Str) : ℚ :=
  let ks := known_suffixes rules
  (candidate.foldl
    (fun acc part =>
      if part ∈ ks then acc + 10
      else if part.length = 1 then acc - 1
      else acc - 5) 0)
    + (candidate.length : ℚ) * (1 / 2)

/-- The `_select_best_match` method of `engine.py`: score every candidate,
sort the scored pairs by score descending (Python `list.sort` is stable, as
is `List.mergeSort`), read the best score off the head, and keep every
candidate achieving it. -/
def select_best_match (rules : RuleSet) (list_of_possible_matches : List (List Str)) :
    List (List Str) :=
  if list_of_possible_matches.isEmpty then []
  else
    let scored_candidates := list_of_possible_matches.map (fun c => (score rules c, c))
    let sorted := scored_candidates.mergeSort (fun a b => decide (b.1 ≤ a.1))
    match sorted with
    | [] => []
    | best :: _ => (sorted.filter (fun p => decide (p.1 = best.1))).map Prod.snd

/-- One record of `analyze`: the Python dict
`{"root": ..., "stem": ..., "suffixes": ..., "flag_number": ...}`. -/
structure AnalysisRecord where
  root : Str
  stem : Str
  suffixes : List Str
  flag_number : Str
deriving DecidableEq

/-- One element of the list returned by `analyze`: either an analysis record
or a diagnostic string. -/
inductive Entry where
  | record (r : AnalysisRecord)
  | diag (s : Str)
deriving DecidableEq

/-- The body of the innermost rule loop of `analyze` for one
`(word, root, flag, rule)` combination: check the rule condition against the
root, strip `rule.strip` from the end of the root when it is non-empty and
`re.match(strip, root)` succeeds, append `rule.add`, and on an exact match
with the word emit one record per decomposition of `rule.add`.  The source
also computes `best_match` from `_select_best_match` (falling back to
`[[add]]` when empty) but then iterates over `possible_splits`, leaving
`best_match` unused; the unused binding is kept here. -/
def ruleRecords (rm : Str → Str → Bool) (rules : RuleSet) (rba : RuleIndex)
    (word root flag : Str) (rule : AffRule) : List AnalysisRecord :=
  if rule.cond ≠ dotPat ∧ rm rule.cond root = false then []
  else
    let modified_root :=
      if rule.strip ≠ [] ∧ rm rule.strip root then
        root.take (root.length - rule.strip.length)
      else root
    let expected_word := modified_root ++ rule.add
    if expected_word = word then
      let possible_splits := recursive_split rm rba modified_root rule.add
      let _best_match :=
        let bm := select_best_match rules possible_splits
        if bm.isEmpty then [[rule.add]] else bm
      possible_splits.map (fun ps => ⟨root, rule.add, ps, flag⟩)
    else []

/-- The per-word body of the outer loop of `analyze`: scan the lexicon for
roots strictly shorter than the word that the word starts with, then try
every rule of every flag of the root. -/
def analyzeWord (rm : Str → Str → Bool) (a : MorphAnalyzer) (word : Str) :
    List AnalysisRecord :=
  a.dictionary.flatMap (fun re0 =>
    if re0.1.length ≥ word.length then []
    else if !(re0.1.isPrefixOf word) then []
    else
      re0.2.flags.flatMap (fun flag =>
        match alookup a.rules flag with
        | none => []
        | some frules =>
          frules.flatMap (fun rule =>
            ruleRecords rm a.rules a.rules_by_add word re0.1 flag rule)))

/-- The lowered word list `list_of_sentences` of `analyze`. -/
def wordsOf (sentences : Str) : List Str :=
  (pySplitSpace sentences).map pyLower

/-- The `analyses` list accumulated by `analyze` before its final return:
records for all words, one group per word in input order. -/
def analysesOf (rm : Str → Str → Bool) (a : MorphAnalyzer) (sentences : Str) :
    List Entry :=
  (wordsOf sentences).flatMap (fun w => (analyzeWord rm a w).map Entry.record)

/-- The diagnostic string `f"No analysis found for '{word}'"`. -/
def noAnalysisMsg (w : Str) : Str :=
  str "No analysis found for " ++ [Char.ofNat 39] ++ w ++ [Char.ofNat 39]

/-- The `analyze` method of `engine.py`: return the accumulated records, or,
when there are none at all, a single diagnostic naming the value left in the
loop variable `word` — the last word of the input (initialised to `""`). -/
def analyze (rm : Str → Str → Bool) (a : MorphAnalyzer) (sentences : Str) :
    List Entry :=
  if analysesOf rm a sentences = [] then
    [Entry.diag (noAnalysisMsg ((wordsOf sentences).getLastD []))]
  else analysesOf rm a sentences

/-- The `analyze` call with its exception behaviour made explicit: the `try`
block of the source can only re-raise `MorphologicalException.ANALYZE_ERROR`,
which no statement of the body raises, so the call always returns normally. -/
def analyzeE (rm : Str → Str → Bool) (a : MorphAnalyzer) (sentences : Str) :
    Except Str (List Entry) :=
  Except.ok (analyze rm a sentences)

/-- The model of `re.match(pattern, s)` for a pattern with no regex
metacharacters: a literal pattern matches at the start of `s` exactly when it
is a prefix of `s`. -/
def rmLit (p s : Str) : Bool := p.isPrefixOf s

/-- The strip step of the claimed matching rule, stated from the spec wording:
strip `rule.strip` from the end of the root when the strip is present and the
strip pattern matches the root. -/
def specStripRoot (rm : Str → Str → Bool) (root : Str) (rule : AffRule) : Str :=
  if rule.strip ≠ [] ∧ rm rule.strip root then
    root.take (root.length - rule.strip.length)
  else root

/-- The expected word of the claimed matching rule: the stripped root with
`rule.add` appended. -/
def specExpectedWord (rm : Str → Str → Bool) (root : Str) (rule : AffRule) : Str :=
  specStripRoot rm root rule ++ rule.add

/-- The seven single-character Turkish buffer letters hard-coded in
`_select_best_match`. -/
def bufferLetters : List Str :=
  [str "y", str "n", str "s", str "m", str "k", str "z", str "l"]

/-- Test fixture: the lexicon `{"gör": {..., flags: {"F1"}, ...}}`. -/
def gDict : Lexicon := [(str "gör", ⟨str "root", [str "F1"], true⟩)]

/-- Test fixture: the rule table `{"F1": [strip="", add="dim", cond="."]}`. -/
def gRules : RuleSet := [(str "F1", [⟨[], str "dim", str "."⟩])]

/-- Test fixture: an analyzer over `gDict` and `gRules`. -/
def gAnalyzer : MorphAnalyzer := ⟨gDict, gRules, build_reverse_rules gRules⟩

/-- Test fixture: a lexicon whose root `"aba"` carries flag `"F2"`. -/
def aDict : Lexicon := [(str "aba", ⟨str "root", [str "F2"], true⟩)]

/-- Test fixture: a rule table with a non-empty strip:
`{"F2": [strip="a", add="ac", cond="."]}`. -/
def aRules : RuleSet := [(str "F2", [⟨str "a", str "ac", str "."⟩])]

/-- Test fixture: an analyzer over `aDict` and `aRules`. -/
def aAnalyzer : MorphAnalyzer := ⟨aDict, aRules, build_reverse_rules aRules⟩

/-- A successful association-list lookup is a membership. -/
theorem alookup_mem {α : Type} :
    ∀ (m : List (Str × α)) (k : Str) (v : α), alookup m k = some v → (k, v) ∈ m := by
  intro m
  induction m with
  | nil => intro k v h; simp [alookup] at h
  | cons p rest ih =>
    intro k v h
    by_cases hk : p.1 = k
    · have : alookup (p :: rest) k = some p.2 := by
        cases p; simp [alookup, hk] at *; simp [hk]
      rw [this] at h
      cases h
      cases p
      simp at hk
      simp [hk]
    · have : alookup (p :: rest) k = alookup rest k := by
        cases p; simp_all [alookup]
      rw [this] at h
      exact List.mem_cons_of_mem _ (ih k v h)

/-- Every split produced by the fuelled decomposition concatenates back to
the suffix it was split from. -/
theorem rsGo_concat (rm : Str → Str → Bool) (rba : RuleIndex) :
    ∀ (fuel : Nat) (stem suffix : Str) (sp : List Str),
      sp ∈ rsGo rm rba fuel stem suffix → sp.flatten = suffix := by
  intro fuel
  induction fuel with
  | zero =>
    intro stem suffix sp h
    cases suffix with
    | nil => simp [rsGo] at h; simp [h]
    | cons c cs => simp [rsGo] at h
  | succ n ih =>
    intro stem suffix sp h
    cases suffix with
    | nil => simp [rsGo] at h; simp [h]
    | cons c cs =>
      simp only [rsGo, List.mem_flatMap, List.mem_range] at h
      obtain ⟨j, hj, hmem⟩ := h
      by_cases hv : partValid rm rba stem ((c :: cs).take (j + 1))
      · rw [if_pos hv] at hmem
        simp only [List.mem_map] at hmem
        obtain ⟨res, hres, hsp⟩ := hmem
        have hrec := ih (stem ++ (c :: cs).take (j + 1)) ((c :: cs).drop (j + 1)) res hres
        rw [← hsp]
        simp [hrec]
      · rw [if_neg hv] at hmem
        simp at hmem

/-- Every split produced by `recursive_split` concatenates back to its
suffix argument. -/
theorem recursive_split_concat (rm : Str → Str → Bool) (rba : RuleIndex)
    (stem suffix : Str) (sp : List Str) (h : sp ∈ recursive_split rm rba stem suffix) :
    sp.flatten = suffix :=
  rsGo_concat rm rba suffix.length stem suffix sp h

/-- The innermost rule loop factors exactly through the claimed matching
rule: when the condition guard passes, a rule yields records exactly when the
expected word — the stripped root with the add text appended — equals the
input word, and each emitted record pairs the unstripped root with one
decomposition of the add text. -/
theorem ruleRecords_eq (rm : Str → Str → Bool) (rules : RuleSet) (rba : RuleIndex)
    (word root flag : Str) (rule : AffRule) :
    ruleRecords rm rules rba word root flag rule =
      if (rule.cond = dotPat ∨ rm rule.cond root = true) ∧
          specExpectedWord rm root rule = word then
        (recursive_split rm rba (specStripRoot rm root rule) rule.add).map
          (fun sp => ⟨root, rule.add, sp, flag⟩)
      else [] := by
  unfold ruleRecords specExpectedWord specStripRoot
  by_cases h1 : rule.cond ≠ dotPat ∧ rm rule.cond root = false
  · rw [if_pos h1, if_neg]
    rintro ⟨hor, _⟩
    rcases hor with hd | ht
    · exact h1.1 hd
    · rw [h1.2] at ht; cases ht
  · rw [if_neg h1]
    have hor : rule.cond = dotPat ∨ rm rule.cond root = true := by
      rcases not_and_or.mp h1 with h | h
      · exact Or.inl (not_not.mp h)
      · exact Or.inr (Bool.not_eq_false _ |>.mp h)
    by_cases hs : rule.strip ≠ [] ∧ rm rule.strip root = true
    · simp only [if_pos hs]
      by_cases h2 : root.take (root.length - rule.strip.length) ++ rule.add = word
      · simp only [if_pos h2, if_pos (And.intro hor h2)]
      · simp only [if_neg h2]
        rw [if_neg]
        rintro ⟨_, hw⟩
        exact h2 hw
    · simp only [if_neg hs]
      by_cases h2 : root ++ rule.add = word
      · simp only [if_pos h2, if_pos (And.intro hor h2)]
      · simp only [if_neg h2]
        rw [if_neg]
        rintro ⟨_, hw⟩
        exact h2 hw

/-- Inversion for `analyzeWord`: every emitted record comes from some lexicon
root that is a strict prefix of the word, some flag of that root that has
rules, and some rule under that flag. -/
theorem analyzeWord_mem {rm : Str → Str → Bool} {a : MorphAnalyzer} {word : Str}
    {r : AnalysisRecord} (h : r ∈ analyzeWord rm a word) :
    ∃ root entry, (root, entry) ∈ a.dictionary ∧
      ¬ root.length ≥ word.length ∧ root.isPrefixOf word = true ∧
      ∃ flag ∈ entry.flags, ∃ frules, alookup a.rules flag = some frules ∧
        ∃ rule ∈ frules, r ∈ ruleRecords rm a.rules a.rules_by_add word root flag rule := by
  simp only [analyzeWord, List.mem_flatMap] at h
  obtain ⟨re0, hre0, hr⟩ := h
  by_cases hlen : re0.1.length ≥ word.length
  · rw [if_pos hlen] at hr
    simp at hr
  · rw [if_neg hlen] at hr
    by_cases hpre : re0.1.isPrefixOf word = true
    · rw [if_neg (by simp [hpre])] at hr
      simp only [List.mem_flatMap] at hr
      obtain ⟨flag, hflag, hr⟩ := hr
      cases hlook : alookup a.rules flag with
      | none => rw [hlook] at hr; simp at hr
      | some frules =>
        rw [hlook] at hr
        simp only [List.mem_flatMap] at hr
        obtain ⟨rule, hrule, hr⟩ := hr
        exact ⟨re0.1, re0.2, by simpa using hre0, hlen, hpre, flag, hflag, frules, hlook,
          rule, hrule, hr⟩
    · rw [if_pos (by simp [hpre])] at hr
      simp at hr

/-- Inversion for `analyze`: every emitted record was produced by
`analyzeWord` for one of the lowered input words. -/
theorem analyze_record_mem {rm : Str → Str → Bool} {a : MorphAnalyzer} {s : Str}
    {r : AnalysisRecord} (h : Entry.record r ∈ analyze rm a s) :
    ∃ w ∈ wordsOf s, r ∈ analyzeWord rm a w := by
  unfold analyze at h
  split at h
  · simp at h
  · simp only [analysesOf, List.mem_flatMap, List.mem_map] at h
    obtain ⟨w, hw, r0, hr0, heq⟩ := h
    cases heq
    exact ⟨w, hw, hr0⟩

/-- Claim C1 (amended): `analyze` never interleaves diagnostics with records.
When at least one word produced a record, the result is exactly the record
groups of all words in input order, with no diagnostic at all (also for the
words that matched nothing); only when no word produced any record is the
result a single diagnostic string naming the last input word. -/
theorem claim_C1_thm (rm : Str → Str → Bool) (a : MorphAnalyzer) (s : Str) :
    (analysesOf rm a s ≠ [] →
      analyze rm a s = analysesOf rm a s ∧
      ∀ e ∈ analyze rm a s, ∃ r, e = Entry.record r)
  ∧ (analysesOf rm a s = [] →
      analyze rm a s = [Entry.diag (noAnalysisMsg ((wordsOf s).getLastD []))]) := by
  constructor
  · intro hne
    have heq : analyze rm a s = analysesOf rm a s := by rw [analyze, if_neg hne]
    refine ⟨heq, ?_⟩
    intro e he
    rw [heq] at he
    simp only [analysesOf, List.mem_flatMap, List.mem_map] at he
    obtain ⟨w, hw, r, hr, rfl⟩ := he
    exact ⟨r, rfl⟩
  · intro he
    rw [analyze, if_pos he]

/-- Claim C1 witness: on an input with no match at all, the result is the
single diagnostic for that (last) word. -/
theorem claim_C1_witness :
    analyze rmLit gAnalyzer (str "zzz") = [Entry.diag (noAnalysisMsg (str "zzz"))] :=
  (claim_C1_thm rmLit gAnalyzer (str "zzz")).2 (by decide)

/-- Claim C1 counterexample: with the lexicon root `"gör"` (flag `F1`) and
rule `F1: strip="", add="dim", cond="."`, the input `"gördim zzz"` has no
analysis for `"zzz"`, yet the result carries no diagnostic for it — the
record found for `"gördim"` suppresses every diagnostic. -/
theorem claim_C1_cex :
    wordsOf (str "gördim zzz") = [str "gördim", str "zzz"]
  ∧ analyze rmLit gAnalyzer (str "gördim zzz") =
      [Entry.record ⟨str "gör", str "dim", [str "dim"], str "F1"⟩]
  ∧ Entry.diag (noAnalysisMsg (str "zzz")) ∉ analyze rmLit gAnalyzer (str "gördim zzz") := by
  decide

/-- Claim C2 (amended): the identity `r.root ++ r.stem = w` holds for every
record `analyze` emits, provided every loaded rule has an empty strip; a rule
with a non-empty strip that matches the root breaks it, because the record
stores the unstripped root (see the counterexample). -/
theorem claim_C2_thm (rm : Str → Str → Bool) (a : MorphAnalyzer) (s : Str)
    (hstrip : ∀ p ∈ a.rules, ∀ r ∈ p.2, r.strip = ([] : Str)) :
    ∀ rec0 : AnalysisRecord, Entry.record rec0 ∈ analyze rm a s →
      ∃ w ∈ wordsOf s, rec0.root ++ rec0.stem = w := by
  intro rec0 h
  obtain ⟨w, hw, hmem⟩ := analyze_record_mem h
  obtain ⟨root, entry, hdict, hlen, hpre, flag, hflag, frules, hlook, rule, hrule, hrr⟩ :=
    analyzeWord_mem hmem
  have hstrip0 : rule.strip = [] := hstrip _ (alookup_mem _ _ _ hlook) rule hrule
  rw [ruleRecords_eq] at hrr
  split at hrr
  case isTrue hcond =>
    simp only [List.mem_map] at hrr
    obtain ⟨sp, hsp, hreq⟩ := hrr
    refine ⟨w, hw, ?_⟩
    have hw2 : specExpectedWord rm root rule = w := hcond.2
    rw [specExpectedWord, specStripRoot, if_neg (by simp [hstrip0])] at hw2
    rw [← hreq]
    exact hw2
  case isFalse => simp at hrr

/-- Claim C2 witness: with the empty-strip fixture rule set, the record
emitted for `"gördim"` satisfies the identity. -/
theorem claim_C2_witness :
    ∃ w ∈ wordsOf (str "gördim"), str "gör" ++ str "dim" = w :=
  claim_C2_thm rmLit gAnalyzer (str "gördim") (by decide)
    ⟨str "gör", str "dim", [str "dim"], str "F1"⟩ (by decide)

/-- Claim C2 counterexample: with root `"aba"` (flag `F2`) and rule
`F2: strip="a", add="ac", cond="."`, the word `"abac"` is matched (the strip
pattern `"a"` matches the start of `"aba"` and the rule strips the final
character), and the emitted record has `root="aba"`, `stem="ac"`, whose
concatenation `"abaac"` differs from the input word. -/
theorem claim_C2_cex :
    wordsOf (str "abac") = [str "abac"]
  ∧ Entry.record ⟨str "aba", str "ac", [str "ac"], str "F2"⟩ ∈
      analyze rmLit aAnalyzer (str "abac")
  ∧ str "aba" ++ str "ac" ≠ str "abac" := by
  decide

/-- Claim C3: in the rule-matching step, the expected word is the root with
`rule.strip` stripped from its end (when the strip is non-empty and the strip
pattern matches the root) and `rule.add` appended, and — once the condition
guard passes — the rule yields a match exactly when this expected word equals
the input word, emitting one record per decomposition of `rule.add`. -/
theorem claim_C3_thm (rm : Str → Str → Bool) (rules : RuleSet) (rba : RuleIndex)
    (word root flag : Str) (rule : AffRule) :
    ruleRecords rm rules rba word root flag rule =
      if (rule.cond = dotPat ∨ rm rule.cond root = true) ∧
          specExpectedWord rm root rule = word then
        (recursive_split rm rba (specStripRoot rm root rule) rule.add).map
          (fun sp => ⟨root, rule.add, sp, flag⟩)
      else [] :=
  ruleRecords_eq rm rules rba word root flag rule

/-- Claim C4: the round-trip invariant.  Every candidate the decomposer
returns concatenates, in order, to the suffix it decomposed, and consequently
the suffixes of every record `analyze` emits concatenate to its stem. -/
theorem claim_C4_thm :
    (∀ (rm : Str → Str → Bool) (rba : RuleIndex) (stem suffix : Str) (sp : List Str),
      sp ∈ recursive_split rm rba stem suffix → sp.flatten = suffix)
  ∧ (∀ (rm : Str → Str → Bool) (a : MorphAnalyzer) (s : Str) (r : AnalysisRecord),
      Entry.record r ∈ analyze rm a s → r.suffixes.flatten = r.stem) := by
  constructor
  · intro rm rba stem suffix sp h
    exact recursive_split_concat rm rba stem suffix sp h
  · intro rm a s r h
    obtain ⟨w, hw, hmem⟩ := analyze_record_mem h
    obtain ⟨root, entry, hdict, hlen, hpre, flag, hflag, frules, hlook, rule, hrule, hrr⟩ :=
      analyzeWord_mem hmem
    rw [ruleRecords_eq] at hrr
    split at hrr
    case isTrue hcond =>
      simp only [List.mem_map] at hrr
      obtain ⟨sp, hsp, hreq⟩ := hrr
      rw [← hreq]
      exact recursive_split_concat rm a.rules_by_add _ _ sp hsp
    case isFalse => simp at hrr

/-- Claim C4 witness: the record emitted for `"gördim"` has suffixes
`["dim"]`, which concatenate to its stem `"dim"`. -/
theorem claim_C4_witness : List.flatten [str "dim"] = str "dim" :=
  claim_C4_thm.1 rmLit (build_reverse_rules gRules) (str "gör") (str "dim")
    [str "dim"] (by decide)

/-- Claim C5: on the lexicon `{"gör": {flags: {"F1"}}}` with the single rule
`F1: strip="", add="dim", cond="."`, `analyze("gördim")` returns exactly one
record, with root `"gör"`, stem `"dim"` and flag `"F1"`. -/
theorem claim_C5_thm :
    analyze rmLit gAnalyzer (str "gördim") =
      [Entry.record ⟨str "gör", str "dim", [str "dim"], str "F1"⟩] := by
  decide

/-- Claim C7: `analyze` always returns normally — the `except` clause of the
source only catches an exception the body never raises — and its result is
never empty: it is the record list, or a single diagnostic. -/
theorem claim_C7_thm (rm : Str → Str → Bool) (a : MorphAnalyzer) (s : Str) :
    analyzeE rm a s = Except.ok (analyze rm a s) ∧ analyze rm a s ≠ [] := by
  refine ⟨rfl, ?_⟩
  rw [analyze]
  split
  · simp
  · assumption

/-- Claim C9: a missing dictionary file does not raise — `load_dic` yields
the empty lexicon — and an analyzer holding an empty lexicon still answers
every `analyze` call, with a single diagnostic string as the only output. -/
theorem claim_C9_thm :
    load_dic none = Except.ok (some []) ∧
    ∀ (rm : Str → Str → Bool) (rules : RuleSet) (rba : RuleIndex) (s : Str),
      analyze rm ⟨[], rules, rba⟩ s =
        [Entry.diag (noAnalysisMsg ((wordsOf s).getLastD []))] := by
  refine ⟨rfl, ?_⟩
  intro rm rules rba s
  have hempty : analysesOf rm ⟨[], rules, rba⟩ s = [] := by
    simp [analysesOf, analyzeWord]
  rw [analyze, if_pos hempty]

/-- Claim C10: on a dictionary file that exists but has zero lines, the
header skip `next(f)` raises `StopIteration`, which the `except OSError`
handler does not catch, so the exception propagates to the caller instead of
an empty mapping being returned. -/
theorem claim_C10_thm : load_dic (some []) = Except.error PyExc.stopIteration := rfl

/-- The scoring loop, written as a sum over the parts: `+10` per known part,
`-1` per unknown single character, `-5` per other part, plus half a point
per part. -/
theorem score_eq_sum (rules : RuleSet) (c : List Str) :
    score rules c =
      (c.map (fun part =>
        if part ∈ known_suffixes rules then (10 : ℚ)
        else if part.length = 1 then -1 else -5)).sum
      + (c.length : ℚ) * (1 / 2) := by
  have key : ∀ (l : List Str) (acc : ℚ),
      l.foldl (fun acc part =>
        if part ∈ known_suffixes rules then acc + 10
        else if part.length = 1 then acc - 1 else acc - 5) acc
      = acc + (l.map (fun part =>
          if part ∈ known_suffixes rules then (10 : ℚ)
          else if part.length = 1 then -1 else -5)).sum := by
    intro l
    induction l with
    | nil => intro acc; simp
    | cons p l ih =>
      intro acc
      simp only [List.foldl_cons, List.map_cons, List.sum_cons, ih]
      split_ifs <;> ring
  simp only [score, key]
  ring

/-- The selection step keeps exactly the candidates achieving the maximum
score: the stable descending sort puts a top-scoring candidate first, and the
filter against the head score then keeps precisely the top tie group, in
their original relative order. -/
theorem select_best_match_mem (rules : RuleSet) (cands : List (List Str)) (c : List Str) :
    c ∈ select_best_match rules cands ↔
      c ∈ cands ∧ ∀ d ∈ cands, score rules d ≤ score rules c := by
  by_cases hc : cands.isEmpty
  · have hnil : cands = [] := List.isEmpty_iff.mp hc
    subst hnil
    simp [select_best_match]
  · rw [select_best_match, if_neg hc]
    have hcne : cands ≠ [] := by simpa [List.isEmpty_iff] using hc
    cases hsort : (cands.map (fun c => (score rules c, c))).mergeSort
        (fun a b => decide (b.1 ≤ a.1)) with
    | nil =>
      exfalso
      have hlen := congrArg List.length hsort
      simp at hlen
      exact hcne hlen
    | cons best tail =>
      simp only [hsort]
      have hmemiff : ∀ x : ℚ × List Str,
          x ∈ best :: tail ↔ x ∈ cands.map (fun c => (score rules c, c)) := by
        intro x
        rw [← hsort]
        exact List.mem_mergeSort
      have hshape : ∀ x : ℚ × List Str, x ∈ best :: tail →
          x.1 = score rules x.2 ∧ x.2 ∈ cands := by
        intro x hx
        obtain ⟨y, hy, hxy⟩ := List.mem_map.mp ((hmemiff x).mp hx)
        cases hxy
        exact ⟨rfl, hy⟩
      have htrans : ∀ a b c : ℚ × List Str,
          (fun a b : ℚ × List Str => decide (b.1 ≤ a.1)) a b →
          (fun a b : ℚ × List Str => decide (b.1 ≤ a.1)) b c →
          (fun a b : ℚ × List Str => decide (b.1 ≤ a.1)) a c := by
        intro a b c hab hbc
        simp only [decide_eq_true_eq] at *
        exact le_trans hbc hab
      have htotal : ∀ a b : ℚ × List Str,
          (fun a b : ℚ × List Str => decide (b.1 ≤ a.1)) a b ||
          (fun a b : ℚ × List Str => decide (b.1 ≤ a.1)) b a := by
        intro a b
        simp only [Bool.or_eq_true, decide_eq_true_eq]
        exact le_total b.1 a.1
      have hsorted := @List.sorted_mergeSort (ℚ × List Str)
        (fun a b : ℚ × List Str => decide (b.1 ≤ a.1)) htrans htotal
        (cands.map (fun c => (score rules c, c)))
      rw [hsort] at hsorted
      have hmax : ∀ x : ℚ × List Str, x ∈ best :: tail → x.1 ≤ best.1 := by
        intro x hx
        rcases List.mem_cons.mp hx with rfl | hx
        · exact le_refl _
        · have := (List.pairwise_cons.mp hsorted).1 x hx
          simpa using this
      have hbestmem : best ∈ best :: tail := List.mem_cons_self _ _
      have hbest := hshape best hbestmem
      show c ∈ ((best :: tail).filter (fun p => decide (p.1 = best.1))).map Prod.snd ↔ _
      constructor
      · intro hcmem
        obtain ⟨p, hpfil, hpc⟩ := List.mem_map.mp hcmem
        have hpmem := List.mem_of_mem_filter hpfil
        have hpeq : p.1 = best.1 := by
          have := List.of_mem_filter hpfil
          simpa using this
        obtain ⟨hp1, hp2⟩ := hshape p hpmem
        subst hpc
        refine ⟨hp2, ?_⟩
        intro d hd
        have hdmem : (score rules d, d) ∈ best :: tail :=
          (hmemiff _).mpr (List.mem_map_of_mem _ hd)
        have := hmax _ hdmem
        calc score rules d ≤ best.1 := this
          _ = p.1 := hpeq.symm
          _ = score rules p.2 := hp1
      · rintro ⟨hcc, hcmax⟩
        have hcmem : (score rules c, c) ∈ best :: tail :=
          (hmemiff _).mpr (List.mem_map_of_mem _ hcc)
        have hle1 : score rules c ≤ best.1 := hmax _ hcmem
        have hle2 : best.1 ≤ score rules c := by
          rw [hbest.1]
          exact hcmax _ hbest.2
        have heq : score rules c = best.1 := le_antisymm hle1 hle2
        refine List.mem_map.mpr ⟨(score rules c, c), ?_, rfl⟩
        refine List.mem_filter.mpr ⟨hcmem, ?_⟩
        simpa using heq

/-- Membership in the known-suffix set: the non-empty add texts of all rules
together with the seven buffer letters. -/
theorem known_suffixes_mem (rules : RuleSet) (p : Str) :
    p ∈ known_suffixes rules ↔
      ((∃ fr ∈ rules, ∃ r ∈ fr.2, r.add = p ∧ p ≠ []) ∨ p ∈ bufferLetters) := by
  simp only [known_suffixes, bufferLetters, List.mem_append, List.mem_flatMap,
    List.mem_filter, List.mem_map, Bool.not_eq_true']
  constructor
  · rintro (⟨fr, hfr, ⟨⟨r, hr, rfl⟩, hne⟩⟩ | h)
    · exact Or.inl ⟨fr, hfr, r, hr, rfl, by simpa using hne⟩
    · exact Or.inr h
  · rintro (⟨fr, hfr, r, hr, rfl, hne⟩ | h)
    · exact Or.inl ⟨fr, hfr, ⟨⟨r, hr, rfl⟩, by simpa using hne⟩⟩
    · exact Or.inr h

/-- Every successful `load_dic` return is a dict, never the Python `None`. -/
theorem load_dic_ok_isSome (f : Option (List Str)) (d : Option Lexicon)
    (h : load_dic f = Except.ok d) : d.isSome = true := by
  cases f with
  | none =>
    simp only [load_dic] at h
    cases h
    rfl
  | some lines =>
    cases lines with
    | nil => simp [load_dic] at h
    | cons a rest =>
      simp only [load_dic] at h
      cases h
      rfl

/-- Every successful `load_aff` return is a dict, never the Python `None`. -/
theorem load_aff_ok_isSome (f : Option (List Str)) (r : Option RuleSet)
    (h : load_aff f = Except.ok r) : r.isSome = true := by
  cases f with
  | none =>
    simp only [load_aff] at h
    cases h
    rfl
  | some lines =>
    simp only [load_aff] at h
    cases h
    rfl

/-- The `is None` check in the constructor can never fire. -/
theorem initAnalyzer_no_valueError (df af : Option (List Str)) :
    initAnalyzer df af ≠ Except.error InitErr.valueError := by
  intro h
  unfold initAnalyzer at h
  cases hd : load_dic df with
  | error e => rw [hd] at h; simp at h
  | ok dic =>
    rw [hd] at h
    cases ha : load_aff af with
    | error e => rw [ha] at h; simp at h
    | ok rules =>
      rw [ha] at h
      have hds := load_dic_ok_isSome df dic hd
      have hrs := load_aff_ok_isSome af rules ha
      cases dic with
      | none => simp at hds
      | some d =>
        cases rules with
        | none => simp at hrs
        | some r => simp at h

/-- Claim C6: the scorer gives each candidate the sum of `+10` per part in
the known-suffix set (the non-empty rule add texts united with the seven
buffer letters), `-1` per unknown single character and `-5` per other part,
plus `0.5` per part; `select_best_match` returns exactly the candidates
achieving the maximum score (all ties preserved) and maps empty input to
empty output. -/
theorem claim_C6_thm (rules : RuleSet) :
    select_best_match rules [] = []
  ∧ (∀ p : Str, p ∈ known_suffixes rules ↔
      ((∃ fr ∈ rules, ∃ r ∈ fr.2, r.add = p ∧ p ≠ []) ∨ p ∈ bufferLetters))
  ∧ (∀ c : List Str,
      score rules c =
        (c.map (fun part =>
          if part ∈ known_suffixes rules then (10 : ℚ)
          else if part.length = 1 then -1 else -5)).sum
        + (c.length : ℚ) * (1 / 2))
  ∧ (∀ (cands : List (List Str)) (c : List Str),
      c ∈ select_best_match rules cands ↔
        c ∈ cands ∧ ∀ d ∈ cands, score rules d ≤ score rules c) :=
  ⟨rfl, known_suffixes_mem rules, score_eq_sum rules, select_best_match_mem rules⟩

/-- Claim C6 witness: on the fixture rule set, the empty input yields the
empty output, and a lone candidate — trivially of maximal score — is kept. -/
theorem claim_C6_witness :
    select_best_match gRules [] = [] ∧
    [str "dim"] ∈ select_best_match gRules [[str "dim"]] :=
  ⟨(claim_C6_thm gRules).1,
   ((claim_C6_thm gRules).2.2.2 [[str "dim"]] [str "dim"]).mpr
     ⟨by decide, by
        intro d hd
        rw [List.mem_singleton] at hd
        rw [hd]⟩⟩

/-- Claim C8: both loaders return a mapping on every path on which they
return at all — never a distinct total-failure value — so the fatal
`is None` check in the constructor is unreachable, and construction succeeds
even when both tables load empty (both source files missing). -/
theorem claim_C8_thm :
    (∀ (f : Option (List Str)) (d : Option Lexicon),
        load_dic f = Except.ok d → d.isSome = true)
  ∧ (∀ (f : Option (List Str)) (r : Option RuleSet),
        load_aff f = Except.ok r → r.isSome = true)
  ∧ (∀ df af : Option (List Str),
        initAnalyzer df af ≠ Except.error InitErr.valueError)
  ∧ initAnalyzer none none = Except.ok ⟨[], [], []⟩ :=
  ⟨load_dic_ok_isSome, load_aff_ok_isSome, initAnalyzer_no_valueError, rfl⟩

/-- Claim C8 witness: a missing dictionary file still loads as a dict, and
construction from two missing files is not the fatal `ValueError`. -/
theorem claim_C8_witness :
    (some ([] : Lexicon)).isSome = true ∧
    initAnalyzer none none ≠ Except.error InitErr.valueError :=
  ⟨claim_C8_thm.1 none (some []) rfl, claim_C8_thm.2.2.1 none none⟩
